import Mathlib

namespace Randwire

/-!
Verification of the randwire graph-generation and liveness-scheduling core
(graph.py, randomnet.py) against its specification.  Graphs are embedded as a
node count together with a directed edge list; buffers of the executor are
identified by the order position that produced them.
-/

/-- Directed graph with dense integer node ids `0..n-1`. -/
structure Digraph where
  n : Nat
  edges : List (Nat × Nat)
deriving DecidableEq, Repr

/-- Number of edges into `v` (networkx `G.in_degree(v)`). -/
def inDeg (g : Digraph) (v : Nat) : Nat :=
  (g.edges.filter (fun e => e.2 == v)).length

/-- Number of edges out of `v` (networkx `G.out_degree(v)`). -/
def outDeg (g : Digraph) (v : Nat) : Nat :=
  (g.edges.filter (fun e => e.1 == v)).length

/-- Successors of `v` in edge-list order (networkx `G.succ[v]`). -/
def succsOf (g : Digraph) (v : Nat) : List Nat :=
  (g.edges.filter (fun e => e.1 == v)).map (fun e => e.2)

/-- Predecessors of `v` in edge-list order (networkx `G.pred[v]`). -/
def predsOf (g : Digraph) (v : Nat) : List Nat :=
  (g.edges.filter (fun e => e.2 == v)).map (fun e => e.1)

/-- DAG conversion of `GraphGenerator.generate` (graph.py lines 49-56):
`nx.DiGraph(G)` holds both orientations of every undirected edge and the loop
then removes every directed edge `e` with `e[0] >= e[1]`. -/
def toDagEdges (es : List (Nat × Nat)) : List (Nat × Nat) :=
  (es.flatMap (fun e => [e, (e.2, e.1)])).filter (fun e => decide (e.1 < e.2))

/-- Adjacency of the undirected skeleton of `g`. -/
def undirAdj (g : Digraph) (v : Nat) : List Nat :=
  g.edges.foldr
    (fun e acc =>
      if e.1 == v then e.2 :: acc else if e.2 == v then e.1 :: acc else acc) []

/-- Nodes reachable from node 0 in the undirected skeleton within `k` hops. -/
def reachFrom0 (g : Digraph) : Nat → List Nat
  | 0 => [0]
  | k + 1 =>
    ((reachFrom0 g k) ++ (reachFrom0 g k).flatMap (undirAdj g)).dedup

/-- Connectivity of the undirected skeleton (networkx `nx.is_connected`). -/
def isConnected (g : Digraph) : Bool :=
  decide (0 < g.n) && (List.range g.n).all (fun v => (reachFrom0 g g.n).contains v)

/-- The ER connectivity-forcing rejection loop of `GraphGenerator.generate`
(graph.py lines 34-39), run for at most `fuel` iterations: `draws i` is the
graph produced by the `i`-th call of `nx.erdos_renyi_graph`, and `none` means
the loop is still running after `fuel` draws (the source has no cap and no
timeout result). -/
def erLoopFrom (connected : Digraph → Bool) (draws : Nat → Digraph) :
    Nat → Nat → Option Digraph
  | _, 0 => none
  | i, fuel + 1 =>
    let g := draws i
    if connected g then some g else erLoopFrom connected draws (i + 1) fuel

/-- The ER rejection loop started at its first draw. -/
def erLoop (connected : Digraph → Bool) (draws : Nat → Digraph) (fuel : Nat) :
    Option Digraph :=
  erLoopFrom connected draws 0 fuel

/-- Kahn inner loop body shared by the two networkx topological sorts:
decrement the in-degree of each child in turn and append a child to the
pending collection when its count reaches zero. -/
def decChildren : List Nat → List Nat → List Nat → List Nat × List Nat
  | indeg, pending, [] => (indeg, pending)
  | indeg, pending, c :: cs =>
    let indeg' := indeg.set c (indeg.getD c 0 - 1)
    let pending' := if indeg'.getD c 0 == 0 then pending ++ [c] else pending
    decChildren indeg' pending' cs

/-- networkx `topological_sort`: the zero in-degree nodes are kept in a python
list used as a stack (`zero_indegree.pop()` pops from the end). -/
def kahnStackLoop (g : Digraph) : List Nat → List Nat → Nat → List Nat
  | _, _, 0 => []
  | indeg, stack, fuel + 1 =>
    match stack.getLast? with
    | none => []
    | some v =>
      let st := decChildren indeg stack.dropLast (succsOf g v)
      v :: kahnStackLoop g st.1 st.2 fuel

/-- The topological order used by `RandomNetwork.__init__` (randomnet.py line
42), i.e. networkx `topological_sort`. -/
def nxTopologicalSort (g : Digraph) : List Nat :=
  kahnStackLoop g ((List.range g.n).map (inDeg g))
    ((List.range g.n).filter (fun v => inDeg g v == 0)) g.n

/-- Minimum of a nonempty list of naturals. -/
def listMin : List Nat → Option Nat
  | [] => none
  | x :: xs => some (xs.foldl Nat.min x)

/-- networkx `lexicographical_topological_sort` with the default key: the zero
in-degree nodes sit in a min-heap and the smallest id is popped first. -/
def lexKahnLoop (g : Digraph) : List Nat → List Nat → Nat → List Nat
  | _, _, 0 => []
  | indeg, heap, fuel + 1 =>
    match listMin heap with
    | none => []
    | some v =>
      let st := decChildren indeg (heap.erase v) (succsOf g v)
      v :: lexKahnLoop g st.1 st.2 fuel

/-- The topological order used by `test` in graph.py (line 114). -/
def lexTopologicalSort (g : Digraph) : List Nat :=
  lexKahnLoop g ((List.range g.n).map (inDeg g))
    ((List.range g.n).filter (fun v => inDeg g v == 0)) g.n

/-- Validity check for a topological order: a permutation of `0..n-1` in which
every edge goes from an earlier to a later position. -/
def isTopoOrder (g : Digraph) (ord : List Nat) : Bool :=
  decide (ord.length = g.n) && decide ord.Nodup &&
  (List.range g.n).all (fun v => ord.contains v) &&
  g.edges.all (fun e => decide (ord.indexOf e.1 < ord.indexOf e.2))

/-- Per-position spans (randomnet.py `__init__` lines 45-50 and graph.py `test`
lines 117-122): the span of the node at a position is the largest order
position among its successors, or the node count `G.number_of_nodes()` when it
has no successor. -/
def ispans (g : Digraph) (ord : List Nat) : List Nat :=
  ord.map (fun v =>
    let nextnodes := (succsOf g v).map (fun s => ord.indexOf s)
    match nextnodes with
    | [] => g.n
    | _ :: _ => nextnodes.foldl Nat.max 0)

/-- `live[k]` (randomnet.py `__init__` lines 52-55 and graph.py `test` lines
124-127): the positions `i` with `span(i) >= k` and `i < k`, ascending. -/
def liveAt (spans : List Nat) (k : Nat) : List Nat :=
  (List.range spans.length).filter
    (fun i => decide (k ≤ spans.getD i 0) && decide (i < k))

/-- Peak live-buffer count of an order (graph.py `test` line 136). -/
def nlives (g : Digraph) (ord : List Nat) : Nat :=
  ((List.range ord.length).map
    (fun k => (liveAt (ispans g ord) k).length)).foldl Nat.max 0

/-- Peak live count of a graph under the order the `test` scheduler uses. -/
def peakOf (g : Digraph) : Nat := nlives g (lexTopologicalSort g)

/-- `nx.relabel_nodes` with a total mapping (graph.py `test` lines 131-133). -/
def relabelG (g : Digraph) (perm : Nat → Nat) : Digraph :=
  ⟨g.n, g.edges.map (fun e => (perm e.1, perm e.2))⟩

/-- One trial of the reorder search of graph.py `test` (lines 109-140):
liveness is computed on the current graph, the graph is then relabeled, and
the incumbent `Gopt` is updated with the already-relabeled graph while
`min_lives` records the peak of the graph measured before relabeling. -/
def searchStep (st : Digraph × Nat × Option Digraph) (perm : Nat → Nat) :
    Digraph × Nat × Option Digraph :=
  let nl := nlives st.1 (lexTopologicalSort st.1)
  let G' := relabelG st.1 perm
  if nl < st.2.1 then (G', nl, some G') else (G', st.2.1, st.2.2)

/-- The reorder search of graph.py `test`: `min_lives` starts at the node
count, one trial per permutation, returning `(min_lives, Gopt)`. -/
def search (g : Digraph) (perms : List (Nat → Nat)) : Nat × Option Digraph :=
  let st := perms.foldl searchStep (g, g.n, none)
  (st.2.1, st.2.2)

/-- Deletion list of one step of `RandomNetwork.forward` (randomnet.py lines
73-85) at order position `k`: indices into the live list of the predecessor
buffers that leave the live set after step `k`, skipped at the final
position. -/
def toDeleteAt (g : Digraph) (ord spans : List Nat) (k : Nat) : List Nat :=
  (predsOf g (ord.getD k 0)).filterMap (fun p =>
    let ipred := ord.indexOf p
    if decide (k ≠ ord.length - 1) &&
        !((liveAt spans (k + 1)).contains ipred) then
      some ((liveAt spans k).indexOf ipred)
    else none)

/-- Continuation of the step: delete in descending index order, then append
the freshly produced buffer. -/
def forwardStep (g : Digraph) (ord spans : List Nat) (outs : List Nat)
    (k : Nat) : List Nat :=
  let node := ord.getD k 0
  if inDeg g node == 0 then outs ++ [k]
  else
    let sorted := List.insertionSort (fun a b => b ≤ a)
      (toDeleteAt g ord spans k)
    (sorted.foldl (fun o i => o.eraseIdx i) outs) ++ [k]

/-- The executor's buffer list after the first `k` steps of
`RandomNetwork.forward`. -/
def forwardOuts (g : Digraph) (ord spans : List Nat) : Nat → List Nat
  | 0 => []
  | k + 1 => forwardStep g ord spans (forwardOuts g ord spans k) k

/-- Positions of the buffers aggregated by the final `torch.mean` of
`RandomNetwork.forward` (lines 100-101): everything still held after all
positions have executed, under the executor's own order. -/
def aggregatedPositions (g : Digraph) : List Nat :=
  let ord := nxTopologicalSort g
  forwardOuts g ord (ispans g ord) g.n

/-- Scalar-seed derivation of `get_graphs` (graph.py line 82):
`[s for s in range(seeds, seeds + ngraphs - 1)]`. -/
def deriveSeeds (seed ngraphs : Nat) : List Nat :=
  (List.range (seed + ngraphs - 1 - seed)).map (fun i => seed + i)

/-- The generation loop of `get_graphs` (graph.py lines 87-91): the `i`-th
graph is generated with `nnodes[i]` and `seeds[i]`; an out-of-range list index
is the python `IndexError`, modeled as `none`. -/
def get_graphs (gen : Nat → Option Nat → Digraph) (ngraphs : Nat)
    (nnodes : List Nat) (seeds : List (Option Nat)) : Option (List Digraph) :=
  (List.range ngraphs).mapM (fun i =>
    match nnodes.get? i, seeds.get? i with
    | some nn, some s => some (gen nn s)
    | _, _ => none)

/-- Two-node chain DAG `0 → 1`. -/
def chain2 : Digraph := ⟨2, [(0, 1)]⟩

/-- Three-node DAG with edges `0 → 2` and `1 → 2`. -/
def forkGraph : Digraph := ⟨3, [(0, 2), (1, 2)]⟩

/-- Five-node star DAG `0→1, 0→2, 0→3, 0→4` of end-to-end scenario 5. -/
def star5 : Digraph := ⟨5, [(0, 1), (0, 2), (0, 3), (0, 4)]⟩

/-- Seven-node binary in-tree, labeled so that the lexicographic order
evaluates the left subtree completely before the right one. -/
def tree7 : Digraph := ⟨7, [(0, 2), (1, 2), (3, 5), (4, 5), (2, 6), (5, 6)]⟩

/-- Relabeling of `tree7` that renames its nodes into breadth-first layers. -/
def permBfs : Nat → Nat := fun i =>
  if i = 2 then 4 else if i = 3 then 2 else if i = 4 then 3 else i

/-- Two isolated nodes: the ER draw for `P = 0`, `nodeCount = 2` (any seed). -/
def emptyG2 : Digraph := ⟨2, []⟩

/-- Lexicographic comparison of node-id sequences. -/
def listLexLt : List Nat → List Nat → Bool
  | [], [] => false
  | [], _ :: _ => true
  | _ :: _, [] => false
  | a :: as, b :: bs => if a < b then true else if a == b then listLexLt as bs else false

/-! ### Lemmas about the ER rejection loop -/

lemma erLoopFrom_none_of_disconnected (connected : Digraph → Bool)
    (draws : Nat → Digraph) (h : ∀ i, connected (draws i) = false) :
    ∀ fuel i, erLoopFrom connected draws i fuel = none := by
  intro fuel
  induction fuel with
  | zero => intro i; rfl
  | succ m ih =>
    intro i
    simp only [erLoopFrom, h i, ih (i + 1)]
    rfl

lemma erLoopFrom_some_connected (connected : Digraph → Bool)
    (draws : Nat → Digraph) :
    ∀ fuel i g, erLoopFrom connected draws i fuel = some g →
      connected g = true := by
  intro fuel
  induction fuel with
  | zero => intro i g h; exact absurd h (by simp [erLoopFrom])
  | succ m ih =>
    intro i g h
    by_cases hc : connected (draws i) = true
    · have : erLoopFrom connected draws i (m + 1) = some (draws i) := by
        simp [erLoopFrom, hc]
      rw [this] at h
      cases h
      exact hc
    · have : erLoopFrom connected draws i (m + 1) =
          erLoopFrom connected draws (i + 1) m := by
        simp [erLoopFrom, hc]
      rw [this] at h
      exact ih (i + 1) g h

/-- C3: the claim that the ER connectivity-rejection loop is bounded by a
retry cap is false: there is no cap after which the loop has produced an
answer; on a constantly disconnected draw stream (as produced by `P = 0` with
`nodeCount = 2`) the loop is still running after any number of draws, and the
source signals no timeout. -/
theorem C3_counterexample :
    ¬ ∃ cap : Nat, ∀ fuel : Nat, cap ≤ fuel →
      erLoop isConnected (fun _ => emptyG2) fuel ≠ none := by
  rintro ⟨cap, h⟩
  exact h cap le_rfl
    (erLoopFrom_none_of_disconnected isConnected (fun _ => emptyG2)
      (fun _ => rfl) cap 0)

/-- C3 amended: the ER rejection loop of `GraphGenerator.generate` is
unbounded: there is no retry cap and no `GenerationTimeout`; the loop runs
until some draw is connected (so it never returns when every draw is
disconnected), and any graph it returns is a connected draw. -/
theorem C3_amended (connected : Digraph → Bool) (draws : Nat → Digraph) :
    ((∀ i, connected (draws i) = false) →
      ∀ fuel, erLoop connected draws fuel = none)
    ∧ (∀ fuel g, erLoop connected draws fuel = some g → connected g = true) := by
  constructor
  · intro h fuel
    exact erLoopFrom_none_of_disconnected connected draws h fuel 0
  · intro fuel g h
    exact erLoopFrom_some_connected connected draws fuel 0 g h

/-- Witness for C3 amended at the concrete disconnected two-node draw. -/
theorem C3_witness :
    (∀ i : Nat, isConnected ((fun _ => emptyG2) i) = false)
    ∧ erLoop isConnected (fun _ => emptyG2) 1000 = none := by
  refine ⟨fun _ => rfl, ?_⟩
  exact (C3_amended isConnected (fun _ => emptyG2)).1 (fun _ => rfl) 1000

/-- C10: with a fixed integer seed, every iteration of the ER rejection loop
calls `nx.erdos_renyi_graph(nnode, P, seed)` with the same arguments, hence
draws the identical graph; the loop terminates (returning that graph at the
first iteration) iff the first draw is connected, and never returns when the
first draw is disconnected. -/
theorem C10_seed_reuse (connected : Digraph → Bool)
    (drawSeed : Nat → Digraph) (seed : Nat) :
    (connected (drawSeed seed) = true →
      ∀ fuel, 1 ≤ fuel →
        erLoop connected (fun _ => drawSeed seed) fuel = some (drawSeed seed))
    ∧ (connected (drawSeed seed) = false →
      ∀ fuel, erLoop connected (fun _ => drawSeed seed) fuel = none) := by
  constructor
  · intro hc fuel hf
    cases fuel with
    | zero => exact absurd hf (by decide)
    | succ m => simp [erLoop, erLoopFrom, hc]
  · intro hc fuel
    exact erLoopFrom_none_of_disconnected connected (fun _ => drawSeed seed)
      (fun _ => hc) fuel 0

/-- Witness for C10 on a connected and on a disconnected first draw. -/
theorem C10_witness :
    (isConnected chain2 = true
      ∧ erLoop isConnected (fun _ => chain2) 3 = some chain2)
    ∧ (isConnected emptyG2 = false
      ∧ erLoop isConnected (fun _ => emptyG2) 3 = none) := by
  refine ⟨⟨by decide, ?_⟩, ⟨by decide, ?_⟩⟩
  · exact (C10_seed_reuse isConnected (fun _ => chain2) 0).1 (by decide) 3
      (by decide)
  · exact (C10_seed_reuse isConnected (fun _ => emptyG2) 0).2 (by decide) 3

/-! ### C7: DAG conversion -/

/-- C7: for an undirected edge list without self-loops, the DAG conversion
keeps exactly the low-to-high orientation of every edge, never contains an
edge `(u, v)` with `u ≥ v`, and is acyclic. -/
theorem C7_toDag (es : List (Nat × Nat)) (hs : ∀ e ∈ es, e.1 ≠ e.2) :
    (∀ e ∈ toDagEdges es, e.1 < e.2)
    ∧ (∀ e ∈ es,
        ((e.1, e.2) ∈ toDagEdges es ∧ (e.2, e.1) ∉ toDagEdges es)
        ∨ ((e.2, e.1) ∈ toDagEdges es ∧ (e.1, e.2) ∉ toDagEdges es))
    ∧ (∀ v, ¬ Relation.TransGen (fun a b => (a, b) ∈ toDagEdges es) v v) := by
  have hlt : ∀ e ∈ toDagEdges es, e.1 < e.2 := by
    intro e he
    have := List.of_mem_filter he
    exact of_decide_eq_true this
  refine ⟨hlt, ?_, ?_⟩
  · intro e he
    rcases Nat.lt_trichotomy e.1 e.2 with h | h | h
    · left
      constructor
      · apply List.mem_filter.mpr
        refine ⟨?_, by simpa using h⟩
        apply List.mem_flatMap.mpr
        exact ⟨e, he, by simp⟩
      · intro hmem
        exact absurd (hlt _ hmem) (by simpa using Nat.le_of_lt h)
    · exact absurd h (hs e he)
    · right
      constructor
      · apply List.mem_filter.mpr
        refine ⟨?_, by simpa using h⟩
        apply List.mem_flatMap.mpr
        exact ⟨e, he, by simp⟩
      · intro hmem
        exact absurd (hlt _ hmem) (by simpa using Nat.le_of_lt h)
  · intro v hcyc
    have mono : ∀ a b,
        Relation.TransGen (fun a b => (a, b) ∈ toDagEdges es) a b → a < b := by
      intro a b h
      induction h with
      | single hp => exact hlt _ hp
      | tail _ hp ih => exact Nat.lt_trans ih (hlt _ hp)
    exact Nat.lt_irrefl v (mono v v hcyc)

/-- Witness for C7 at the concrete undirected edge list `[(0,1), (2,1)]`. -/
theorem C7_witness :
    (∀ e ∈ [((0 : Nat), (1 : Nat)), (2, 1)], e.1 ≠ e.2)
    ∧ (∀ e ∈ toDagEdges [(0, 1), (2, 1)], e.1 < e.2)
    ∧ (∀ e ∈ [((0 : Nat), (1 : Nat)), (2, 1)],
        ((e.1, e.2) ∈ toDagEdges [(0, 1), (2, 1)]
          ∧ (e.2, e.1) ∉ toDagEdges [(0, 1), (2, 1)])
        ∨ ((e.2, e.1) ∈ toDagEdges [(0, 1), (2, 1)]
          ∧ (e.1, e.2) ∉ toDagEdges [(0, 1), (2, 1)])) := by
  have h := C7_toDag [(0, 1), (2, 1)] (by decide)
  exact ⟨by decide, h.1, h.2.1⟩

/-! ### Concrete evaluations: C2, C4, C5, C6, C8 -/

/-- C2: the reorder search stores the post-relabel graph as the incumbent, so
the returned graph does not attain the returned best peak: on `tree7` with one
trial and the breadth-first relabeling, `search` returns best peak 3 (the peak
of the unmodified graph, as the claim states for one trial) together with the
relabeled graph, whose own liveness plan peaks at 4. -/
theorem C2_eval :
    search tree7 [permBfs] = (3, some (relabelG tree7 permBfs))
    ∧ peakOf tree7 = 3
    ∧ peakOf (relabelG tree7 permBfs) = 4 :=
  ⟨rfl, rfl, rfl⟩

/-- C4 counterexample: on the DAG with edges `0→2, 1→2` the executor's order
(networkx `topological_sort`) is `[1, 0, 2]`, while `[0, 1, 2]` is also a
valid topological order and is lexicographically smaller. -/
theorem C4_counterexample :
    nxTopologicalSort forkGraph = [1, 0, 2]
    ∧ isTopoOrder forkGraph [0, 1, 2] = true
    ∧ listLexLt [0, 1, 2] (nxTopologicalSort forkGraph) = true :=
  ⟨rfl, rfl, rfl⟩

/-- C5 counterexample: in the two-node chain the node at the final position
has out-degree 0, and its span is the node count 2, not `nodeCount - 1 = 1`. -/
theorem C5_counterexample :
    outDeg chain2 1 = 0
    ∧ lexTopologicalSort chain2 = [0, 1]
    ∧ (ispans chain2 (lexTopologicalSort chain2)).getD 1 0 = 2
    ∧ chain2.n - 1 = 1 :=
  ⟨rfl, rfl, rfl, rfl⟩

/-- C6: with a scalar seed, `get_graphs` derives only `graphCount - 1` seeds
(`range(seeds, seeds + ngraphs - 1)`), so the generation loop reads one seed
past the end of the derived list: for two requested graphs and seed 0 only the
seed list `[0]` is produced and the second lookup raises `IndexError`
(modeled as `none`). -/
theorem C6_eval :
    deriveSeeds 0 2 = [0]
    ∧ get_graphs (fun nn _ => ⟨nn, []⟩) 2 [5, 5]
        ((deriveSeeds 0 2).map some) = none :=
  ⟨rfl, rfl⟩

/-- C8 counterexample: for the 5-node star the liveness plan peaks at 4, but
node 0 executes at position 0 and the live count at the following step 1 is 1,
not 4; the peak is not attained at the step following node 0's execution. -/
theorem C8_counterexample :
    nlives star5 (lexTopologicalSort star5) = 4
    ∧ (lexTopologicalSort star5).indexOf 0 = 0
    ∧ (liveAt (ispans star5 (lexTopologicalSort star5)) 1).length = 1 :=
  ⟨rfl, rfl, rfl⟩

/-- C8 amended: the star's liveness plan has peak live-count 4, attained at
the final step (position 4), where node 0's buffer and the three earlier
terminal buffers are simultaneously live; the per-step live counts are
`[0, 1, 2, 3, 4]`. -/
theorem C8_amended :
    lexTopologicalSort star5 = [0, 1, 2, 3, 4]
    ∧ (List.range 5).map
        (fun k => (liveAt (ispans star5 (lexTopologicalSort star5)) k).length)
        = [0, 1, 2, 3, 4]
    ∧ nlives star5 (lexTopologicalSort star5) = 4 :=
  ⟨rfl, rfl, rfl⟩

/-! ### Generic list helpers -/

lemma mem_succsOf {g : Digraph} {v s : Nat} :
    s ∈ succsOf g v ↔ (v, s) ∈ g.edges := by
  unfold succsOf
  simp only [List.mem_map, List.mem_filter, beq_iff_eq]
  constructor
  · rintro ⟨e, ⟨he, h1⟩, h2⟩
    have : e = (v, s) := by
      cases e
      simp_all
    rw [this] at he
    exact he
  · intro h
    exact ⟨(v, s), ⟨h, rfl⟩, rfl⟩

lemma mem_predsOf {g : Digraph} {v p : Nat} :
    p ∈ predsOf g v ↔ (p, v) ∈ g.edges := by
  unfold predsOf
  simp only [List.mem_map, List.mem_filter, beq_iff_eq]
  constructor
  · rintro ⟨e, ⟨he, h2⟩, h1⟩
    have : e = (p, v) := by
      cases e
      simp_all
    rw [this] at he
    exact he
  · intro h
    exact ⟨(p, v), ⟨h, rfl⟩, rfl⟩

lemma succsOf_eq_nil_iff {g : Digraph} {v : Nat} :
    succsOf g v = [] ↔ outDeg g v = 0 := by
  unfold succsOf outDeg
  rw [← List.length_eq_zero, List.length_map]

lemma predsOf_eq_nil_iff {g : Digraph} {v : Nat} :
    predsOf g v = [] ↔ inDeg g v = 0 := by
  unfold predsOf inDeg
  rw [← List.length_eq_zero, List.length_map]

lemma le_foldl_max (l : List Nat) (a : Nat) : a ≤ l.foldl Nat.max a := by
  induction l generalizing a with
  | nil => exact le_rfl
  | cons x xs ih =>
    exact le_trans (Nat.le_max_left a x) (ih (Nat.max a x))

lemma foldl_max_le_of_mem {l : List Nat} {a x : Nat} (hx : x ∈ l) :
    x ≤ l.foldl Nat.max a := by
  induction l generalizing a with
  | nil => cases hx
  | cons y ys ih =>
    rcases List.mem_cons.mp hx with rfl | h
    · exact le_trans (Nat.le_max_right a x) (le_foldl_max ys (Nat.max a x))
    · exact ih h

lemma foldl_max_mem (l : List Nat) (a : Nat) :
    l.foldl Nat.max a = a ∨ l.foldl Nat.max a ∈ l := by
  induction l generalizing a with
  | nil => exact Or.inl rfl
  | cons x xs ih =>
    rcases ih (Nat.max a x) with h | h
    · rcases Nat.le_total x a with hm | hm
      · left
        rw [List.foldl_cons, h]
        exact max_eq_left hm
      · right
        rw [List.foldl_cons, h]
        have hmx : Nat.max a x = x := max_eq_right hm
        rw [hmx]
        exact List.mem_cons_self x xs
    · right
      exact List.mem_cons_of_mem x h

lemma foldl_max_zero_mem {l : List Nat} (h : l ≠ []) :
    l.foldl Nat.max 0 ∈ l := by
  rcases foldl_max_mem l 0 with h0 | hm
  · cases l with
    | nil => exact absurd rfl h
    | cons x xs =>
      have hx : x ≤ 0 := h0 ▸ foldl_max_le_of_mem (List.mem_cons_self x xs)
      have : x = 0 := Nat.le_zero.mp hx
      rw [h0, ← this]
      exact List.mem_cons_self x xs
  · exact hm

lemma getD_indexOf {l : List Nat} {a : Nat} (h : a ∈ l) :
    l.getD (l.indexOf a) 0 = a := by
  have hlt : l.indexOf a < l.length := List.indexOf_lt_length.mpr h
  rw [List.getD_eq_getElem l 0 hlt]
  exact List.getElem_indexOf hlt

lemma indexOf_getD_of_nodup {l : List Nat} (hnd : l.Nodup) {j : Nat}
    (hj : j < l.length) : l.indexOf (l.getD j 0) = j := by
  rw [List.getD_eq_getElem l 0 hj]
  have hmem : l[j] ∈ l := List.getElem_mem hj
  have hlt : l.indexOf l[j] < l.length := List.indexOf_lt_length.mpr hmem
  have : l[l.indexOf l[j]] = l[j] := List.getElem_indexOf hlt
  exact (List.Nodup.getElem_inj_iff hnd).mp this

/-! ### C5: the span formula -/

/-- C5 amended: for every node with at least one successor, its span is the
order position of its last successor (there is an edge to the node at that
position and no successor sits at a later position); for every node with
out-degree 0 the span is the node count `g.n` (not `g.n - 1`), which still
keeps the node live through every step of the plan. -/
theorem C5_amended (g : Digraph) (ord : List Nat) (hnd : ord.Nodup)
    (hcov : ∀ v, v < g.n → v ∈ ord)
    (hR : ∀ e ∈ g.edges, e.1 < g.n ∧ e.2 < g.n)
    (i : Nat) (hi : i < ord.length) :
    (outDeg g (ord.getD i 0) = 0 → (ispans g ord).getD i 0 = g.n)
    ∧ (0 < outDeg g (ord.getD i 0) →
        (ord.getD i 0, ord.getD ((ispans g ord).getD i 0) 0) ∈ g.edges
        ∧ ∀ j, j < ord.length → (ord.getD i 0, ord.getD j 0) ∈ g.edges →
            j ≤ (ispans g ord).getD i 0) := by
  have hlen : (ispans g ord).length = ord.length := List.length_map ord _
  have hi' : i < (ispans g ord).length := hlen ▸ hi
  have hspan : (ispans g ord).getD i 0 =
      (let nextnodes := (succsOf g (ord.getD i 0)).map (fun s => ord.indexOf s)
       match nextnodes with
       | [] => g.n
       | _ :: _ => nextnodes.foldl Nat.max 0) := by
    rw [List.getD_eq_getElem _ 0 hi', List.getD_eq_getElem _ 0 hi]
    exact List.getElem_map _
  constructor
  · intro hdeg
    have hnil : succsOf g (ord.getD i 0) = [] := succsOf_eq_nil_iff.mpr hdeg
    rw [hspan, hnil]
    rfl
  · intro hdeg
    have hne : (succsOf g (ord.getD i 0)).map (fun s => ord.indexOf s) ≠ [] := by
      intro h
      have hnil : succsOf g (ord.getD i 0) = [] := List.map_eq_nil_iff.mp h
      rw [succsOf_eq_nil_iff.mp hnil] at hdeg
      exact Nat.lt_irrefl 0 hdeg
    obtain ⟨x, xs, hx⟩ : ∃ x xs,
        (succsOf g (ord.getD i 0)).map (fun s => ord.indexOf s) = x :: xs := by
      cases hc : (succsOf g (ord.getD i 0)).map (fun s => ord.indexOf s) with
      | nil => exact absurd hc hne
      | cons x xs => exact ⟨x, xs, rfl⟩
    have hspan' : (ispans g ord).getD i 0 =
        ((succsOf g (ord.getD i 0)).map (fun s => ord.indexOf s)).foldl
          Nat.max 0 := by
      rw [hspan, hx]
    constructor
    · have hmem :
          ((succsOf g (ord.getD i 0)).map (fun s => ord.indexOf s)).foldl
            Nat.max 0
          ∈ (succsOf g (ord.getD i 0)).map (fun s => ord.indexOf s) :=
        foldl_max_zero_mem hne
      rcases List.mem_map.mp hmem with ⟨s, hs, hidx⟩
      have hedge : (ord.getD i 0, s) ∈ g.edges := mem_succsOf.mp hs
      have hsn : s < g.n := (hR _ hedge).2
      have hsord : s ∈ ord := hcov s hsn
      have hgd : ord.getD
          (((succsOf g (ord.getD i 0)).map (fun s => ord.indexOf s)).foldl
            Nat.max 0) 0 = s := by
        rw [← hidx]
        exact getD_indexOf hsord
      rw [hspan', hgd]
      exact hedge
    · intro j hj hedge
      have hsucc : ord.getD j 0 ∈ succsOf g (ord.getD i 0) :=
        mem_succsOf.mpr hedge
      have hidx : ord.indexOf (ord.getD j 0) = j := indexOf_getD_of_nodup hnd hj
      have hmem : j ∈ (succsOf g (ord.getD i 0)).map (fun s => ord.indexOf s) :=
        List.mem_map.mpr ⟨ord.getD j 0, hsucc, hidx⟩
      rw [hspan']
      exact foldl_max_le_of_mem hmem

/-- Witness for C5 amended on the 5-node star at position 0. -/
theorem C5_witness :
    ([0, 1, 2, 3, 4] : List Nat).Nodup
    ∧ (∀ v, v < star5.n → v ∈ ([0, 1, 2, 3, 4] : List Nat))
    ∧ (∀ e ∈ star5.edges, e.1 < star5.n ∧ e.2 < star5.n)
    ∧ (0 : Nat) < 5
    ∧ ((outDeg star5 (([0, 1, 2, 3, 4] : List Nat).getD 0 0) = 0 →
        (ispans star5 [0, 1, 2, 3, 4]).getD 0 0 = star5.n)
      ∧ (0 < outDeg star5 (([0, 1, 2, 3, 4] : List Nat).getD 0 0) →
        (([0, 1, 2, 3, 4] : List Nat).getD 0 0,
          ([0, 1, 2, 3, 4] : List Nat).getD
            ((ispans star5 [0, 1, 2, 3, 4]).getD 0 0) 0) ∈ star5.edges
        ∧ ∀ j, j < ([0, 1, 2, 3, 4] : List Nat).length →
            (([0, 1, 2, 3, 4] : List Nat).getD 0 0,
              ([0, 1, 2, 3, 4] : List Nat).getD j 0) ∈ star5.edges →
            j ≤ (ispans star5 [0, 1, 2, 3, 4]).getD 0 0)) := by
  refine ⟨by decide, by decide, by decide, by decide, ?_⟩
  exact C5_amended star5 [0, 1, 2, 3, 4] (by decide) (by decide) (by decide) 0
    (by decide)

/-! ### Liveness infrastructure -/

lemma isTopoOrder_spec {g : Digraph} {ord : List Nat}
    (h : isTopoOrder g ord = true) :
    ord.length = g.n ∧ ord.Nodup ∧ (∀ v, v < g.n → v ∈ ord)
    ∧ ∀ e ∈ g.edges, ord.indexOf e.1 < ord.indexOf e.2 := by
  unfold isTopoOrder at h
  simp only [Bool.and_eq_true, decide_eq_true_eq, List.all_eq_true,
    List.mem_range] at h
  obtain ⟨⟨⟨h1, h2⟩, h3⟩, h4⟩ := h
  refine ⟨h1, h2, ?_, h4⟩
  intro v hv
  have := h3 v hv
  simpa [List.contains] using this

lemma filter_range_lt_eq (q : Nat → Bool) :
    ∀ n c, c ≤ n →
      (List.range n).filter (fun i => q i && decide (i < c))
        = (List.range c).filter q := by
  intro n
  induction n with
  | zero =>
    intro c hc
    have hc0 : c = 0 := Nat.le_zero.mp hc
    rw [hc0]
    rfl
  | succ m ih =>
    intro c hc
    rcases Nat.eq_or_lt_of_le hc with heq | hlt
    · rw [heq]
      apply List.filter_congr
      intro i hi
      have : i < m + 1 := List.mem_range.mp hi
      rw [decide_eq_true this, Bool.and_true]
    · have hc' : c ≤ m := Nat.lt_succ_iff.mp hlt
      rw [List.range_succ m, List.filter_append]
      have hm : List.filter (fun i => q i && decide (i < c)) [m] = [] := by
        have hnm : ¬ m < c := Nat.not_lt.mpr hc'
        simp [hnm]
      rw [hm, List.append_nil]
      exact ih c hc'

lemma liveAt_zero (spans : List Nat) : liveAt spans 0 = [] := by
  apply List.filter_eq_nil_iff.mpr
  intro a _
  simp

lemma liveAt_eq_range_filter (spans : List Nat) (k : Nat)
    (hk : k ≤ spans.length) :
    liveAt spans k
      = (List.range k).filter (fun i => decide (k ≤ spans.getD i 0)) :=
  filter_range_lt_eq _ spans.length k hk

lemma mem_liveAt {spans : List Nat} {k i : Nat} :
    i ∈ liveAt spans k ↔
      i < spans.length ∧ k ≤ spans.getD i 0 ∧ i < k := by
  unfold liveAt
  simp only [List.mem_filter, List.mem_range, Bool.and_eq_true,
    decide_eq_true_eq]

lemma liveAt_pairwise (spans : List Nat) (k : Nat) :
    (liveAt spans k).Pairwise (· < ·) :=
  (List.pairwise_lt_range _).filter _

lemma liveAt_nodup (spans : List Nat) (k : Nat) : (liveAt spans k).Nodup :=
  (liveAt_pairwise spans k).imp (fun h => Nat.ne_of_lt h)

lemma foldl_eraseIdx_map_succ (idxs : List Nat) (x : Nat) :
    ∀ M : List Nat,
      (idxs.map Nat.succ).foldl (fun o i => o.eraseIdx i) (x :: M)
        = x :: idxs.foldl (fun o i => o.eraseIdx i) M := by
  induction idxs with
  | nil => intro M; rfl
  | cons d ds ih =>
    intro M
    simp only [List.map_cons, List.foldl_cons, List.eraseIdx_cons_succ]
    exact ih _

lemma foldl_eraseIdx_rev_filter (P : Nat → Bool) :
    ∀ L : List Nat,
      (((List.range L.length).filter (fun j => !P (L.getD j 0))).reverse).foldl
        (fun o i => o.eraseIdx i) L = L.filter P := by
  intro L
  induction L with
  | nil => rfl
  | cons x M ih =>
    have hlen : (x :: M).length = M.length + 1 := rfl
    have hmapped :
        (List.filter (fun j => !P ((x :: M).getD j 0))
            ((List.range M.length).map Nat.succ))
          = (List.filter (fun j => !P (M.getD j 0)) (List.range M.length)).map
              Nat.succ := by
      rw [List.filter_map]
      rfl
    cases hPx : P x with
    | true =>
      have hfilt :
          List.filter (fun j => !P ((x :: M).getD j 0))
              (0 :: (List.range M.length).map Nat.succ)
            = List.filter (fun j => !P ((x :: M).getD j 0))
                ((List.range M.length).map Nat.succ) := by
        simp [List.filter_cons, hPx]
      have hPf : List.filter P (x :: M) = x :: List.filter P M :=
        List.filter_cons_of_pos hPx
      rw [hlen, List.range_succ_eq_map M.length, hfilt, hmapped, hPf,
        ← List.map_reverse, foldl_eraseIdx_map_succ, ih]
    | false =>
      have hfilt :
          List.filter (fun j => !P ((x :: M).getD j 0))
              (0 :: (List.range M.length).map Nat.succ)
            = 0 :: List.filter (fun j => !P ((x :: M).getD j 0))
                ((List.range M.length).map Nat.succ) := by
        simp [List.filter_cons, hPx]
      have hPneg : ¬ P x = true := by
        simp [hPx]
      have hPf : List.filter P (x :: M) = List.filter P M :=
        List.filter_cons_of_neg hPneg
      rw [hlen, List.range_succ_eq_map M.length, hfilt, hmapped, hPf,
        List.reverse_cons, ← List.map_reverse, List.foldl_append,
        foldl_eraseIdx_map_succ, ih]
      rfl

lemma nodup_filterMap_on {f : Nat → Option Nat} :
    ∀ {l : List Nat}, l.Nodup →
      (∀ a ∈ l, ∀ a' ∈ l, ∀ b, f a = some b → f a' = some b → a = a') →
      (l.filterMap f).Nodup := by
  intro l
  induction l with
  | nil =>
    intro _ _
    simp
  | cons a t ih =>
    intro hnd hinj
    have hnd' := (List.nodup_cons.mp hnd).2
    have hinj' : ∀ x ∈ t, ∀ x' ∈ t, ∀ b, f x = some b → f x' = some b →
        x = x' := fun x hx x' hx' b h1 h2 =>
      hinj x (List.mem_cons_of_mem a hx) x' (List.mem_cons_of_mem a hx') b h1 h2
    rw [List.filterMap_cons]
    cases hfa : f a with
    | none => exact ih hnd' hinj'
    | some b =>
      apply List.nodup_cons.mpr
      refine ⟨?_, ih hnd' hinj'⟩
      intro hb
      rcases List.mem_filterMap.mp hb with ⟨a', ha', hfa'⟩
      have haa : a = a' :=
        hinj a (List.mem_cons_self a t) a' (List.mem_cons_of_mem a ha') b
          hfa hfa'
      rw [← haa] at ha'
      exact (List.nodup_cons.mp hnd).1 ha'

lemma sortDesc_eq_reverse_of_perm {dels F : List Nat} (hperm : dels.Perm F)
    (hF : F.Pairwise (· < ·)) :
    List.insertionSort (fun a b => b ≤ a) dels = F.reverse := by
  haveI hT : IsTotal ℕ (fun a b : ℕ => b ≤ a) := ⟨fun a b => Nat.le_total b a⟩
  haveI hTr : IsTrans ℕ (fun a b : ℕ => b ≤ a) :=
    ⟨fun a b c h1 h2 => Nat.le_trans h2 h1⟩
  haveI hA : IsAntisymm ℕ (fun a b : ℕ => b ≤ a) :=
    ⟨fun a b h1 h2 => Nat.le_antisymm h2 h1⟩
  apply List.eq_of_perm_of_sorted (r := fun a b : ℕ => b ≤ a)
  · exact (List.perm_insertionSort _ dels).trans (hperm.trans F.reverse_perm.symm)
  · exact List.sorted_insertionSort _ dels
  · show (F.reverse).Pairwise (fun a b : ℕ => b ≤ a)
    rw [List.pairwise_reverse]
    exact hF.imp (fun h => Nat.le_of_lt h)

/-! ### Span lemmas -/

lemma ispans_length (g : Digraph) (ord : List Nat) :
    (ispans g ord).length = ord.length :=
  List.length_map ord _

lemma ispans_getD_nil {g : Digraph} {ord : List Nat} {i : Nat}
    (hi : i < ord.length) (h : succsOf g (ord.getD i 0) = []) :
    (ispans g ord).getD i 0 = g.n := by
  have hi' : i < (ispans g ord).length := (ispans_length g ord).symm ▸ hi
  rw [List.getD_eq_getElem _ 0 hi']
  unfold ispans
  rw [List.getElem_map]
  have : ord[i] = ord.getD i 0 := (List.getD_eq_getElem ord 0 hi).symm
  rw [this, h]
  rfl

lemma ispans_getD_of_ne_nil {g : Digraph} {ord : List Nat} {i : Nat}
    (hi : i < ord.length) (h : succsOf g (ord.getD i 0) ≠ []) :
    (ispans g ord).getD i 0
      = ((succsOf g (ord.getD i 0)).map (fun s => ord.indexOf s)).foldl
          Nat.max 0 := by
  have hi' : i < (ispans g ord).length := (ispans_length g ord).symm ▸ hi
  rw [List.getD_eq_getElem _ 0 hi']
  unfold ispans
  rw [List.getElem_map]
  have hg : ord[i] = ord.getD i 0 := (List.getD_eq_getElem ord 0 hi).symm
  rw [hg]
  obtain ⟨x, xs, hx⟩ : ∃ x xs,
      (succsOf g (ord.getD i 0)).map (fun s => ord.indexOf s) = x :: xs := by
    cases hc : (succsOf g (ord.getD i 0)).map (fun s => ord.indexOf s) with
    | nil => exact absurd (List.map_eq_nil_iff.mp hc) h
    | cons x xs => exact ⟨x, xs, rfl⟩
  rw [hx]

lemma span_ge_of_succ {g : Digraph} {ord : List Nat} {i : Nat}
    (hi : i < ord.length) {s : Nat} (hs : s ∈ succsOf g (ord.getD i 0)) :
    ord.indexOf s ≤ (ispans g ord).getD i 0 := by
  have hne : succsOf g (ord.getD i 0) ≠ [] := by
    intro h
    rw [h] at hs
    cases hs
  rw [ispans_getD_of_ne_nil hi hne]
  exact foldl_max_le_of_mem (List.mem_map.mpr ⟨s, hs, rfl⟩)

lemma span_attained {g : Digraph} {ord : List Nat} {i : Nat}
    (hi : i < ord.length) (h : succsOf g (ord.getD i 0) ≠ []) :
    ∃ s ∈ succsOf g (ord.getD i 0),
      (ispans g ord).getD i 0 = ord.indexOf s := by
  rw [ispans_getD_of_ne_nil hi h]
  have hne : (succsOf g (ord.getD i 0)).map (fun s => ord.indexOf s) ≠ [] := by
    intro hc
    exact h (List.map_eq_nil_iff.mp hc)
  rcases List.mem_map.mp (foldl_max_zero_mem hne) with ⟨s, hs, hidx⟩
  exact ⟨s, hs, hidx.symm⟩

lemma span_gt_pos {g : Digraph} {ord : List Nat} (hlen : ord.length = g.n)
    (hnd : ord.Nodup)
    (htopo : ∀ e ∈ g.edges, ord.indexOf e.1 < ord.indexOf e.2)
    {i : Nat} (hi : i < ord.length) : i < (ispans g ord).getD i 0 := by
  cases hc : succsOf g (ord.getD i 0) with
  | nil =>
    rw [ispans_getD_nil hi hc]
    exact hlen ▸ hi
  | cons x xs =>
    rcases span_attained hi (by rw [hc]; intro h; cases h) with ⟨s, hs, hsp⟩
    rw [hsp]
    have hedge : (ord.getD i 0, s) ∈ g.edges := mem_succsOf.mp hs
    have := htopo _ hedge
    rwa [indexOf_getD_of_nodup hnd hi] at this

lemma span_edge_of_eq {g : Digraph} {ord : List Nat}
    (hcov : ∀ v, v < g.n → v ∈ ord)
    (hR : ∀ e ∈ g.edges, e.1 < g.n ∧ e.2 < g.n)
    {i k : Nat} (hi : i < ord.length) (hk : k < g.n)
    (h : (ispans g ord).getD i 0 = k) :
    (ord.getD i 0, ord.getD k 0) ∈ g.edges := by
  have hne : succsOf g (ord.getD i 0) ≠ [] := by
    intro hc
    rw [ispans_getD_nil hi hc] at h
    exact Nat.lt_irrefl k (h ▸ hk)
  rcases span_attained hi hne with ⟨s, hs, hsp⟩
  have hedge : (ord.getD i 0, s) ∈ g.edges := mem_succsOf.mp hs
  have hsn : s < g.n := (hR _ hedge).2
  have hsord : s ∈ ord := hcov s hsn
  have hgd : ord.getD (ord.indexOf s) 0 = s := getD_indexOf hsord
  rw [hsp] at h
  rw [← h, hgd]
  exact hedge

lemma span_last {g : Digraph} {ord : List Nat} (hlen : ord.length = g.n)
    (hnd : ord.Nodup)
    (htopo : ∀ e ∈ g.edges, ord.indexOf e.1 < ord.indexOf e.2)
    (hR : ∀ e ∈ g.edges, e.1 < g.n ∧ e.2 < g.n) (hcov : ∀ v, v < g.n → v ∈ ord)
    (hn : 0 < g.n) :
    (ispans g ord).getD (g.n - 1) 0 = g.n := by
  have hi : g.n - 1 < ord.length := by omega
  cases hc : succsOf g (ord.getD (g.n - 1) 0) with
  | nil => exact ispans_getD_nil hi hc
  | cons x xs =>
    exfalso
    have hx : x ∈ succsOf g (ord.getD (g.n - 1) 0) := by
      rw [hc]
      exact List.mem_cons_self x xs
    have hedge : (ord.getD (g.n - 1) 0, x) ∈ g.edges := mem_succsOf.mp hx
    have hlt : ord.indexOf (ord.getD (g.n - 1) 0) < ord.indexOf x :=
      htopo _ hedge
    rw [indexOf_getD_of_nodup hnd hi] at hlt
    have hxn : x < g.n := (hR _ hedge).2
    have hxord : x ∈ ord := hcov x hxn
    have : ord.indexOf x < g.n := hlen ▸ List.indexOf_lt_length.mpr hxord
    omega

/-! ### The executor step lemma -/

lemma contains_iff_mem_nat {l : List Nat} {a : Nat} :
    l.contains a = true ↔ a ∈ l := by
  simp [List.contains]

lemma predsOf_nodup {g : Digraph} (hE : g.edges.Nodup) (v : Nat) :
    (predsOf g v).Nodup := by
  unfold predsOf
  apply List.Nodup.map_on
  · intro x hx y hy hxy
    have hx2 : x.2 = v := by
      have := (List.mem_filter.mp hx).2
      simpa using this
    have hy2 : y.2 = v := by
      have := (List.mem_filter.mp hy).2
      simpa using this
    cases x
    cases y
    simp_all
  · exact hE.filter _

lemma liveAt_succ_eq (spans : List Nat) (k : Nat) (hk : k < spans.length)
    (hsp : k < spans.getD k 0) :
    liveAt spans (k + 1)
      = (liveAt spans k).filter (fun i => decide (k + 1 ≤ spans.getD i 0))
        ++ [k] := by
  have h1 : List.filter (fun i => decide (k + 1 ≤ spans.getD i 0)) [k]
      = [k] := by
    have hd : decide (k + 1 ≤ spans.getD k 0) = true :=
      decide_eq_true (Nat.succ_le_of_lt hsp)
    simp only [List.filter_cons, List.filter_nil]
    rw [hd]
    rfl
  rw [liveAt_eq_range_filter spans (k + 1) (by omega), List.range_succ k,
    List.filter_append, h1, liveAt_eq_range_filter spans k (le_of_lt hk),
    List.filter_filter]
  congr 1
  apply List.filter_congr
  intro i _
  show decide (k + 1 ≤ spans.getD i 0)
      = (decide (k + 1 ≤ spans.getD i 0) && decide (k ≤ spans.getD i 0))
  by_cases h : k + 1 ≤ spans.getD i 0
  · rw [decide_eq_true h, decide_eq_true (show k ≤ spans.getD i 0 by omega)]
    rfl
  · rw [decide_eq_false h]
    rfl

lemma inDeg_pos_of_edge {g : Digraph} {u v : Nat} (h : (u, v) ∈ g.edges) :
    0 < inDeg g v := by
  unfold inDeg
  have hmem : (u, v) ∈ g.edges.filter (fun e => e.2 == v) :=
    List.mem_filter.mpr ⟨h, by simp⟩
  exact List.length_pos.mpr (List.ne_nil_of_mem hmem)

lemma mem_toDeleteAt_iff {g : Digraph} {ord : List Nat}
    (hlen : ord.length = g.n) (hnd : ord.Nodup)
    (hcov : ∀ v, v < g.n → v ∈ ord)
    (htopo : ∀ e ∈ g.edges, ord.indexOf e.1 < ord.indexOf e.2)
    (hR : ∀ e ∈ g.edges, e.1 < g.n ∧ e.2 < g.n)
    {k : Nat} (hk : k + 1 < g.n) :
    ∀ j, j ∈ toDeleteAt g ord (ispans g ord) k ↔
      j ∈ (List.range (liveAt (ispans g ord) k).length).filter
        (fun j => !decide (k + 1 ≤ (ispans g ord).getD
            ((liveAt (ispans g ord) k).getD j 0) 0)) := by
  have hsl : (ispans g ord).length = g.n := (ispans_length g ord).trans hlen
  have hkord : k < ord.length := by omega
  have hidxk : ord.indexOf (ord.getD k 0) = k := indexOf_getD_of_nodup hnd hkord
  intro j
  constructor
  · intro hj
    rcases List.mem_filterMap.mp hj with ⟨p, hp, hfp⟩
    dsimp only at hfp
    cases hcond : (decide (k ≠ ord.length - 1) &&
        !((liveAt (ispans g ord) (k + 1)).contains (ord.indexOf p))) with
    | false =>
      rw [hcond, if_neg (by simp)] at hfp
      cases hfp
    | true =>
      rw [hcond, if_pos rfl] at hfp
      have hj' : j = (liveAt (ispans g ord) k).indexOf (ord.indexOf p) :=
        (Option.some_inj.mp hfp).symm
      have hedge : (p, ord.getD k 0) ∈ g.edges := mem_predsOf.mp hp
      have hplt : ord.indexOf p < k := by
        have := htopo _ hedge
        rwa [hidxk] at this
      have hpn : p < g.n := (hR _ hedge).1
      have hpord : p ∈ ord := hcov p hpn
      have hgdp : ord.getD (ord.indexOf p) 0 = p := getD_indexOf hpord
      have hsge : k ≤ (ispans g ord).getD (ord.indexOf p) 0 := by
        have hsel : ord.getD k 0 ∈ succsOf g (ord.getD (ord.indexOf p) 0) := by
          rw [hgdp]
          exact mem_succsOf.mpr hedge
        have := span_ge_of_succ (by omega : ord.indexOf p < ord.length) hsel
        rwa [hidxk] at this
      have hmemL : ord.indexOf p ∈ liveAt (ispans g ord) k :=
        mem_liveAt.mpr ⟨by omega, hsge, hplt⟩
      have hnot : ord.indexOf p ∉ liveAt (ispans g ord) (k + 1) := by
        intro hmem
        have hc := contains_iff_mem_nat.mpr hmem
        rw [Bool.and_eq_true] at hcond
        rw [hc] at hcond
        simp at hcond
      have hsle : (ispans g ord).getD (ord.indexOf p) 0 ≤ k := by
        by_contra hgt
        exact hnot (mem_liveAt.mpr ⟨by omega, by omega, by omega⟩)
      apply List.mem_filter.mpr
      refine ⟨?_, ?_⟩
      · apply List.mem_range.mpr
        rw [hj']
        exact List.indexOf_lt_length.mpr hmemL
      · rw [hj', getD_indexOf hmemL]
        simp only [Bool.not_eq_true']
        exact decide_eq_false (by omega)
  · intro hj
    rcases List.mem_filter.mp hj with ⟨hjr, hjp⟩
    have hjlen : j < (liveAt (ispans g ord) k).length := List.mem_range.mp hjr
    have hiL : (liveAt (ispans g ord) k).getD j 0 ∈ liveAt (ispans g ord) k := by
      rw [List.getD_eq_getElem _ 0 hjlen]
      exact List.getElem_mem hjlen
    rcases mem_liveAt.mp hiL with ⟨hilen, hki, hik⟩
    have hsple : (ispans g ord).getD ((liveAt (ispans g ord) k).getD j 0) 0
        ≤ k := by
      simp only [Bool.not_eq_true'] at hjp
      have := of_decide_eq_false hjp
      omega
    have hspeq : (ispans g ord).getD ((liveAt (ispans g ord) k).getD j 0) 0
        = k := le_antisymm hsple hki
    have hedge := span_edge_of_eq hcov hR (by omega :
      (liveAt (ispans g ord) k).getD j 0 < ord.length) (by omega) hspeq
    apply List.mem_filterMap.mpr
    refine ⟨ord.getD ((liveAt (ispans g ord) k).getD j 0) 0, ?_, ?_⟩
    · exact mem_predsOf.mpr hedge
    · have hidxp : ord.indexOf
          (ord.getD ((liveAt (ispans g ord) k).getD j 0) 0)
          = (liveAt (ispans g ord) k).getD j 0 :=
        indexOf_getD_of_nodup hnd (by omega)
      dsimp only
      rw [hidxp]
      have hnot : (liveAt (ispans g ord) k).getD j 0
          ∉ liveAt (ispans g ord) (k + 1) := by
        intro hmem
        rcases mem_liveAt.mp hmem with ⟨_, hge, _⟩
        omega
      have hcf : (liveAt (ispans g ord) (k + 1)).contains
          ((liveAt (ispans g ord) k).getD j 0) = false := by
        cases hc : (liveAt (ispans g ord) (k + 1)).contains
            ((liveAt (ispans g ord) k).getD j 0) with
        | false => rfl
        | true => exact absurd (contains_iff_mem_nat.mp hc) hnot
      rw [hcf]
      have hkne : decide (k ≠ ord.length - 1) = true :=
        decide_eq_true (by omega)
      rw [hkne]
      simp only [Bool.not_false, Bool.and_true, if_pos]
      rw [indexOf_getD_of_nodup (liveAt_nodup _ _) hjlen]

lemma pred_pos_in_live {g : Digraph} {ord : List Nat}
    (hlen : ord.length = g.n) (hnd : ord.Nodup)
    (hcov : ∀ v, v < g.n → v ∈ ord)
    (htopo : ∀ e ∈ g.edges, ord.indexOf e.1 < ord.indexOf e.2)
    (hR : ∀ e ∈ g.edges, e.1 < g.n ∧ e.2 < g.n)
    {k : Nat} (hkord : k < ord.length)
    {p : Nat} (hp : p ∈ predsOf g (ord.getD k 0)) :
    ord.indexOf p ∈ liveAt (ispans g ord) k := by
  have hsl : (ispans g ord).length = g.n := (ispans_length g ord).trans hlen
  have hidxk : ord.indexOf (ord.getD k 0) = k := indexOf_getD_of_nodup hnd hkord
  have hedge : (p, ord.getD k 0) ∈ g.edges := mem_predsOf.mp hp
  have hplt : ord.indexOf p < k := by
    have := htopo _ hedge
    rwa [hidxk] at this
  have hpn : p < g.n := (hR _ hedge).1
  have hgdp : ord.getD (ord.indexOf p) 0 = p := getD_indexOf (hcov p hpn)
  have hsge : k ≤ (ispans g ord).getD (ord.indexOf p) 0 := by
    have hsel : ord.getD k 0 ∈ succsOf g (ord.getD (ord.indexOf p) 0) := by
      rw [hgdp]
      exact mem_succsOf.mpr hedge
    have := span_ge_of_succ (show ord.indexOf p < ord.length by omega) hsel
    rwa [hidxk] at this
  exact mem_liveAt.mpr ⟨by omega, hsge, hplt⟩

lemma toDeleteAt_nodup {g : Digraph} {ord : List Nat}
    (hlen : ord.length = g.n) (hnd : ord.Nodup)
    (hcov : ∀ v, v < g.n → v ∈ ord)
    (htopo : ∀ e ∈ g.edges, ord.indexOf e.1 < ord.indexOf e.2)
    (hE : g.edges.Nodup)
    (hR : ∀ e ∈ g.edges, e.1 < g.n ∧ e.2 < g.n)
    {k : Nat} (hkord : k < ord.length) :
    (toDeleteAt g ord (ispans g ord) k).Nodup := by
  unfold toDeleteAt
  refine nodup_filterMap_on (predsOf_nodup hE _) ?_
  intro p hp p' hp' b hb hb'
  dsimp only at hb hb'
  cases hcb : (decide (k ≠ ord.length - 1) &&
      !((liveAt (ispans g ord) (k + 1)).contains (ord.indexOf p))) with
  | false =>
    rw [hcb, if_neg (by simp)] at hb
    cases hb
  | true =>
    rw [hcb, if_pos rfl] at hb
    cases hcb' : (decide (k ≠ ord.length - 1) &&
        !((liveAt (ispans g ord) (k + 1)).contains (ord.indexOf p'))) with
    | false =>
      rw [hcb', if_neg (by simp)] at hb'
      cases hb'
    | true =>
      rw [hcb', if_pos rfl] at hb'
      have h1 := Option.some_inj.mp hb
      have h2 := Option.some_inj.mp hb'
      have hpL := pred_pos_in_live hlen hnd hcov htopo hR hkord hp
      have hpL' := pred_pos_in_live hlen hnd hcov htopo hR hkord hp'
      have hidx : ord.indexOf p = ord.indexOf p' :=
        (List.indexOf_inj hpL hpL').mp (h1.trans h2.symm)
      have hpn : p < g.n := (hR _ (mem_predsOf.mp hp)).1
      have hpn' : p' < g.n := (hR _ (mem_predsOf.mp hp')).1
      exact (List.indexOf_inj (hcov p hpn) (hcov p' hpn')).mp hidx

lemma forwardStep_succ {g : Digraph} {ord : List Nat}
    (hlen : ord.length = g.n) (hnd : ord.Nodup)
    (hcov : ∀ v, v < g.n → v ∈ ord)
    (htopo : ∀ e ∈ g.edges, ord.indexOf e.1 < ord.indexOf e.2)
    (hE : g.edges.Nodup)
    (hR : ∀ e ∈ g.edges, e.1 < g.n ∧ e.2 < g.n)
    {k : Nat} (hk : k + 1 < g.n) :
    forwardStep g ord (ispans g ord) (liveAt (ispans g ord) k) k
      = liveAt (ispans g ord) (k + 1) := by
  have hsl : (ispans g ord).length = g.n := (ispans_length g ord).trans hlen
  have hkord : k < ord.length := by omega
  have hspk : k < (ispans g ord).getD k 0 := span_gt_pos hlen hnd htopo hkord
  have hsucc := liveAt_succ_eq (ispans g ord) k (by omega) hspk
  by_cases hdeg : inDeg g (ord.getD k 0) = 0
  · have hstep : forwardStep g ord (ispans g ord) (liveAt (ispans g ord) k) k
        = liveAt (ispans g ord) k ++ [k] := by
      unfold forwardStep
      rw [if_pos (by simpa using hdeg)]
    rw [hstep, hsucc]
    congr 1
    symm
    apply List.filter_eq_self.mpr
    intro i hiL
    rcases mem_liveAt.mp hiL with ⟨hilen, hki, hik⟩
    rcases Nat.lt_or_ge k ((ispans g ord).getD i 0) with hgt | hle
    · exact decide_eq_true (by omega)
    · exfalso
      have hspeq : (ispans g ord).getD i 0 = k := le_antisymm hle hki
      have hedge := span_edge_of_eq hcov hR (show i < ord.length by omega)
        (by omega) hspeq
      have := inDeg_pos_of_edge hedge
      omega
  · have hstep : forwardStep g ord (ispans g ord) (liveAt (ispans g ord) k) k
        = ((List.insertionSort (fun a b => b ≤ a)
            (toDeleteAt g ord (ispans g ord) k)).foldl
            (fun o i => o.eraseIdx i) (liveAt (ispans g ord) k)) ++ [k] := by
      unfold forwardStep
      rw [if_neg (by simpa using hdeg)]
    have hFpair : ((List.range (liveAt (ispans g ord) k).length).filter
        (fun j => !decide (k + 1 ≤ (ispans g ord).getD
            ((liveAt (ispans g ord) k).getD j 0) 0))).Pairwise (· < ·) :=
      (List.pairwise_lt_range _).filter _
    have hFnodup : ((List.range (liveAt (ispans g ord) k).length).filter
        (fun j => !decide (k + 1 ≤ (ispans g ord).getD
            ((liveAt (ispans g ord) k).getD j 0) 0))).Nodup :=
      hFpair.imp (fun h => Nat.ne_of_lt h)
    have hperm : (toDeleteAt g ord (ispans g ord) k).Perm
        ((List.range (liveAt (ispans g ord) k).length).filter
          (fun j => !decide (k + 1 ≤ (ispans g ord).getD
              ((liveAt (ispans g ord) k).getD j 0) 0))) :=
      (List.perm_ext_iff_of_nodup
        (toDeleteAt_nodup hlen hnd hcov htopo hE hR hkord) hFnodup).mpr
        (mem_toDeleteAt_iff hlen hnd hcov htopo hR hk)
    have hsorted := sortDesc_eq_reverse_of_perm hperm hFpair
    have herase :
        ((((List.range (liveAt (ispans g ord) k).length).filter
            (fun j => !decide (k + 1 ≤ (ispans g ord).getD
                ((liveAt (ispans g ord) k).getD j 0) 0))).reverse).foldl
          (fun o i => o.eraseIdx i) (liveAt (ispans g ord) k))
        = (liveAt (ispans g ord) k).filter
            (fun i => decide (k + 1 ≤ (ispans g ord).getD i 0)) :=
      foldl_eraseIdx_rev_filter
        (fun i => decide (k + 1 ≤ (ispans g ord).getD i 0))
        (liveAt (ispans g ord) k)
    rw [hstep, hsorted, herase, hsucc]

lemma forwardOuts_eq_liveAt {g : Digraph} {ord : List Nat}
    (hlen : ord.length = g.n) (hnd : ord.Nodup)
    (hcov : ∀ v, v < g.n → v ∈ ord)
    (htopo : ∀ e ∈ g.edges, ord.indexOf e.1 < ord.indexOf e.2)
    (hE : g.edges.Nodup)
    (hR : ∀ e ∈ g.edges, e.1 < g.n ∧ e.2 < g.n) :
    ∀ k, k < g.n →
      forwardOuts g ord (ispans g ord) k = liveAt (ispans g ord) k := by
  intro k
  induction k with
  | zero =>
    intro _
    rw [liveAt_zero]
    rfl
  | succ m ih =>
    intro hm
    show forwardStep g ord (ispans g ord)
        (forwardOuts g ord (ispans g ord) m) m = _
    rw [ih (by omega)]
    exact forwardStep_succ hlen hnd hcov htopo hE hR hm

lemma toDeleteAt_last {g : Digraph} {ord : List Nat}
    (hlen : ord.length = g.n) {m : Nat} (hm : g.n = m + 1) :
    toDeleteAt g ord (ispans g ord) m = [] := by
  unfold toDeleteAt
  apply List.filterMap_eq_nil_iff.mpr
  intro p _
  dsimp only
  have hfalse : decide (m ≠ ord.length - 1) = false :=
    decide_eq_false (by omega)
  rw [hfalse, Bool.false_and, if_neg (by simp)]

lemma forwardStep_last {g : Digraph} {ord : List Nat}
    (hlen : ord.length = g.n) {m : Nat} (hm : g.n = m + 1)
    (outs : List Nat) :
    forwardStep g ord (ispans g ord) outs m = outs ++ [m] := by
  unfold forwardStep
  by_cases hdeg : inDeg g (ord.getD m 0) = 0
  · rw [if_pos (by simpa using hdeg)]
  · rw [if_neg (by simpa using hdeg), toDeleteAt_last hlen hm]
    rfl

lemma forwardOuts_final {g : Digraph} {ord : List Nat}
    (hlen : ord.length = g.n) (hnd : ord.Nodup)
    (hcov : ∀ v, v < g.n → v ∈ ord)
    (htopo : ∀ e ∈ g.edges, ord.indexOf e.1 < ord.indexOf e.2)
    (hE : g.edges.Nodup)
    (hR : ∀ e ∈ g.edges, e.1 < g.n ∧ e.2 < g.n) (hn : 0 < g.n) :
    forwardOuts g ord (ispans g ord) g.n
      = (List.range g.n).filter
          (fun i => decide (g.n - 1 ≤ (ispans g ord).getD i 0)) := by
  obtain ⟨m, hm⟩ : ∃ m, g.n = m + 1 := ⟨g.n - 1, by omega⟩
  have hsl : (ispans g ord).length = g.n := (ispans_length g ord).trans hlen
  have h1 : forwardOuts g ord (ispans g ord) g.n
      = forwardStep g ord (ispans g ord)
          (forwardOuts g ord (ispans g ord) m) m := by
    rw [hm]
    rfl
  rw [h1, forwardOuts_eq_liveAt hlen hnd hcov htopo hE hR m (by omega),
    forwardStep_last hlen hm]
  have hlive : liveAt (ispans g ord) m
      = (List.range m).filter
          (fun i => decide (m ≤ (ispans g ord).getD i 0)) :=
    liveAt_eq_range_filter _ m (by omega)
  have hlastspan : (ispans g ord).getD m 0 = g.n := by
    have := span_last hlen hnd htopo hR hcov hn
    rwa [show g.n - 1 = m by omega] at this
  rw [hlive, show g.n - 1 = m from by omega, hm, List.range_succ m,
    List.filter_append]
  congr 1
  have hd : decide (m ≤ (ispans g ord).getD m 0) = true :=
    decide_eq_true (by rw [hlastspan]; omega)
  simp only [List.filter_cons, List.filter_nil]
  rw [hd]
  rfl

/-! ### C9 and C1 -/

/-- C9: executor live-list alignment.  For every valid topological order of a
graph with well-formed edges, at the start of every step `k` of
`RandomNetwork.forward` the buffer list `outs` holds exactly the buffers of
the positions in `live[k]`, in ascending position order (buffers identified by
producing position), so `outs[live[k].index(ipred)]` is the buffer of
`ipred`; the descending-index deletion preserves this alignment. -/
theorem C9_alignment (g : Digraph) (ord : List Nat)
    (hord : isTopoOrder g ord = true) (hE : g.edges.Nodup)
    (hR : ∀ e ∈ g.edges, e.1 < g.n ∧ e.2 < g.n) :
    ∀ k, k < g.n →
      forwardOuts g ord (ispans g ord) k = liveAt (ispans g ord) k := by
  obtain ⟨hlen, hnd, hcov, htopo⟩ := isTopoOrder_spec hord
  exact forwardOuts_eq_liveAt hlen hnd hcov htopo hE hR

/-- Witness for C9 on the 5-node star under a concrete topological order. -/
theorem C9_witness :
    isTopoOrder star5 [0, 1, 2, 3, 4] = true
    ∧ star5.edges.Nodup
    ∧ (∀ e ∈ star5.edges, e.1 < star5.n ∧ e.2 < star5.n)
    ∧ forwardOuts star5 [0, 1, 2, 3, 4] (ispans star5 [0, 1, 2, 3, 4]) 3
        = liveAt (ispans star5 [0, 1, 2, 3, 4]) 3 := by
  refine ⟨by decide, by decide, by decide, ?_⟩
  exact C9_alignment star5 [0, 1, 2, 3, 4] (by decide) (by decide) (by decide)
    3 (by decide)

/-- C1 counterexample: on the chain `0 → 1`, after both positions execute the
executor still holds the buffers of both positions and aggregates both, yet
node 0 (at position 0) has out-degree 1, not 0: the aggregated buffers are
not only those of out-degree-zero nodes. -/
theorem C1_counterexample :
    aggregatedPositions chain2 = [0, 1]
    ∧ nxTopologicalSort chain2 = [0, 1]
    ∧ outDeg chain2 0 = 1 :=
  ⟨rfl, rfl, rfl⟩

/-- C1 amended: after all positions execute, the executor aggregates
(elementwise mean) exactly the buffers of the positions whose span reaches the
final position `n - 1`: all out-degree-zero (terminal) nodes, but also every
predecessor of the final-position node, because deletion is skipped at the
final step.  Every out-degree-zero node's buffer is included. -/
theorem C1_amended (g : Digraph)
    (hord : isTopoOrder g (nxTopologicalSort g) = true)
    (hE : g.edges.Nodup) (hR : ∀ e ∈ g.edges, e.1 < g.n ∧ e.2 < g.n)
    (hn : 0 < g.n) :
    aggregatedPositions g
      = (List.range g.n).filter
          (fun i => decide (g.n - 1
            ≤ (ispans g (nxTopologicalSort g)).getD i 0))
    ∧ (∀ i, i < g.n →
        outDeg g ((nxTopologicalSort g).getD i 0) = 0 →
        i ∈ aggregatedPositions g) := by
  obtain ⟨hlen, hnd, hcov, htopo⟩ := isTopoOrder_spec hord
  have hagg : aggregatedPositions g
      = (List.range g.n).filter
          (fun i => decide (g.n - 1
            ≤ (ispans g (nxTopologicalSort g)).getD i 0)) :=
    forwardOuts_final hlen hnd hcov htopo hE hR hn
  refine ⟨hagg, ?_⟩
  intro i hi hdeg
  have hnil : succsOf g ((nxTopologicalSort g).getD i 0) = [] :=
    succsOf_eq_nil_iff.mpr hdeg
  have hsp : (ispans g (nxTopologicalSort g)).getD i 0 = g.n :=
    ispans_getD_nil (by omega) hnil
  rw [hagg]
  exact List.mem_filter.mpr
    ⟨List.mem_range.mpr hi, decide_eq_true (by rw [hsp]; omega)⟩

/-- Witness for C1 amended on the 5-node star. -/
theorem C1_witness :
    isTopoOrder star5 (nxTopologicalSort star5) = true
    ∧ star5.edges.Nodup
    ∧ (∀ e ∈ star5.edges, e.1 < star5.n ∧ e.2 < star5.n)
    ∧ (0 : Nat) < star5.n
    ∧ aggregatedPositions star5
        = (List.range star5.n).filter
            (fun i => decide (star5.n - 1
              ≤ (ispans star5 (nxTopologicalSort star5)).getD i 0)) := by
  refine ⟨by decide, by decide, by decide, by decide, ?_⟩
  exact (C1_amended star5 (by decide) (by decide) (by decide) (by decide)).1

/-! ### Kahn validity infrastructure -/

/-- Number of in-edges of `v` whose source has not yet been emitted. -/
def remIn (g : Digraph) (D : List Nat) (v : Nat) : Nat :=
  (g.edges.filter (fun e => e.2 == v && decide (e.1 ∉ D))).length

lemma remIn_nil (g : Digraph) (v : Nat) : remIn g [] v = inDeg g v := by
  unfold remIn inDeg
  congr 1
  apply List.filter_congr
  intro e _
  simp

lemma remIn_eq_zero_iff {g : Digraph} {D : List Nat} {v : Nat} :
    remIn g D v = 0 ↔ ∀ e ∈ g.edges, e.2 = v → e.1 ∈ D := by
  unfold remIn
  rw [List.length_eq_zero, List.filter_eq_nil_iff]
  constructor
  · intro h e he hev
    by_contra hnot
    exact h e he (by simp [hev, hnot])
  · intro h e he hcond
    rw [Bool.and_eq_true, decide_eq_true_eq] at hcond
    exact hcond.2 (h e he (by simpa using hcond.1))

lemma remIn_subset_zero {g : Digraph} {D D' : List Nat} {v : Nat}
    (hDD : ∀ x ∈ D, x ∈ D') (h : remIn g D v = 0) : remIn g D' v = 0 := by
  rw [remIn_eq_zero_iff] at h ⊢
  intro e he hev
  exact hDD _ (h e he hev)

lemma length_filter_split (p q : Nat × Nat → Bool) :
    ∀ l : List (Nat × Nat),
      (l.filter p).length
        = (l.filter (fun a => p a && q a)).length
          + (l.filter (fun a => p a && !q a)).length := by
  intro l
  induction l with
  | nil => rfl
  | cons a t ih =>
    cases hp : p a with
    | false => simp [List.filter_cons, hp, ih]
    | true =>
      cases hq : q a with
      | false => simp [List.filter_cons, hp, hq, ih]; omega
      | true => simp [List.filter_cons, hp, hq, ih]; omega

lemma remIn_append_nonchild {g : Digraph} {D : List Nat} {v w : Nat}
    (h : (v, w) ∉ g.edges) : remIn g (D ++ [v]) w = remIn g D w := by
  unfold remIn
  congr 1
  apply List.filter_congr
  intro e he
  have hno : ¬ (e.1 = v ∧ e.2 = w) := by
    rintro ⟨h1, h2⟩
    apply h
    have : e = (v, w) := by
      cases e
      simp_all
    rw [← this]
    exact he
  rw [Bool.eq_iff_iff]
  simp only [Bool.and_eq_true, beq_iff_eq, decide_eq_true_eq,
    List.mem_append, List.mem_singleton, not_or]
  tauto

lemma filter_eq_singleton_length {l : List (Nat × Nat)} (hnd : l.Nodup)
    {a : Nat × Nat} (ha : a ∈ l) :
    (l.filter (fun e => decide (e = a))).length = 1 := by
  induction l with
  | nil => cases ha
  | cons x t ih =>
    rcases List.mem_cons.mp ha with rfl | hat
    · rw [List.filter_cons_of_pos (by simp)]
      have hxnot : a ∉ t := (List.nodup_cons.mp hnd).1
      have hnil : t.filter (fun e => decide (e = a)) = [] := by
        apply List.filter_eq_nil_iff.mpr
        intro b hb
        simp only [decide_eq_true_eq]
        intro hbx
        rw [hbx] at hb
        exact hxnot hb
      simp [hnil]
    · have hxa : x ≠ a := by
        intro hh
        rw [hh] at hnd
        exact (List.nodup_cons.mp hnd).1 hat
      rw [List.filter_cons_of_neg (by simp [hxa])]
      exact ih (List.nodup_cons.mp hnd).2 hat

lemma remIn_append_child {g : Digraph} {D : List Nat} {v c : Nat}
    (hE : g.edges.Nodup) (hvD : v ∉ D) (hedge : (v, c) ∈ g.edges) :
    remIn g (D ++ [v]) c + 1 = remIn g D c := by
  have hsplit := length_filter_split
    (fun e => e.2 == c && decide (e.1 ∉ D)) (fun e => decide (e.1 = v)) g.edges
  have hB : g.edges.filter
      (fun e => (e.2 == c && decide (e.1 ∉ D)) && decide (e.1 = v))
      = g.edges.filter (fun e => decide (e = (v, c))) := by
    apply List.filter_congr
    intro e _
    have hpe : e = (v, c) ↔ e.1 = v ∧ e.2 = c := by
      cases e
      simp [Prod.ext_iff, and_comm]
    rw [Bool.eq_iff_iff]
    simp only [Bool.and_eq_true, beq_iff_eq, decide_eq_true_eq, hpe]
    constructor
    · rintro ⟨⟨h1, _⟩, h2⟩
      exact ⟨h2, h1⟩
    · rintro ⟨h1, h2⟩
      refine ⟨⟨h2, ?_⟩, h1⟩
      rw [h1]
      exact hvD
  have hone : (g.edges.filter (fun e => decide (e = (v, c)))).length = 1 :=
    filter_eq_singleton_length hE hedge
  have hA : g.edges.filter
      (fun e => (e.2 == c && decide (e.1 ∉ D)) && !decide (e.1 = v))
      = g.edges.filter (fun e => e.2 == c && decide (e.1 ∉ D ++ [v])) := by
    apply List.filter_congr
    intro e _
    rw [Bool.eq_iff_iff]
    simp only [Bool.and_eq_true, beq_iff_eq, decide_eq_true_eq,
      Bool.not_eq_true', decide_eq_false_iff_not, List.mem_append,
      List.mem_singleton, not_or]
    tauto
  rw [hB, hA, hone] at hsplit
  unfold remIn
  omega

lemma succsOf_nodup {g : Digraph} (hE : g.edges.Nodup) (v : Nat) :
    (succsOf g v).Nodup := by
  unfold succsOf
  apply List.Nodup.map_on
  · intro x hx y hy hxy
    have hx1 : x.1 = v := by
      have := (List.mem_filter.mp hx).2
      simpa using this
    have hy1 : y.1 = v := by
      have := (List.mem_filter.mp hy).2
      simpa using this
    cases x
    cases y
    simp_all
  · exact hE.filter _

lemma getD_set_ne (l : List Nat) (i j x : Nat) (h : i ≠ j) :
    (l.set i x).getD j 0 = l.getD j 0 := by
  rw [List.getD_eq_getElem?_getD, List.getElem?_set_ne h,
    ← List.getD_eq_getElem?_getD]

lemma getD_set_self (l : List Nat) (i x : Nat) (h : i < l.length) :
    (l.set i x).getD i 0 = x := by
  rw [List.getD_eq_getElem?_getD, List.getElem?_set_self ?_, Option.getD_some]
  exact h

lemma decChildren_spec {g : Digraph} (hE : g.edges.Nodup) {v : Nat}
    {D : List Nat} (hvD : v ∉ D)
    (hDcl : ∀ e ∈ g.edges, e.2 ∈ D → e.1 ∈ D)
    (hR : ∀ e ∈ g.edges, e.1 < g.n ∧ e.2 < g.n)
    (hself : ∀ e ∈ g.edges, e.1 ≠ e.2) :
    ∀ (cs indeg stack : List Nat),
      indeg.length = g.n →
      cs.Nodup →
      (∀ c ∈ cs, (v, c) ∈ g.edges) →
      (∀ c ∈ cs, c ∉ stack) →
      (∀ c ∈ cs, indeg.getD c 0 = remIn g D c) →
      stack.Nodup →
      (∀ w ∈ stack, w < g.n ∧ w ∉ D ++ [v] ∧ remIn g (D ++ [v]) w = 0) →
      (∀ w, w < g.n → w ∉ D ++ [v] → w ∉ stack → w ∉ cs →
        indeg.getD w 0 = remIn g (D ++ [v]) w) →
      ((decChildren indeg stack cs).1.length = g.n
        ∧ (decChildren indeg stack cs).2.Nodup
        ∧ (∀ w ∈ (decChildren indeg stack cs).2,
            w < g.n ∧ w ∉ D ++ [v] ∧ remIn g (D ++ [v]) w = 0)
        ∧ (∀ w, w < g.n → w ∉ D ++ [v] →
            w ∉ (decChildren indeg stack cs).2 →
            (decChildren indeg stack cs).1.getD w 0
              = remIn g (D ++ [v]) w)) := by
  intro cs
  induction cs with
  | nil =>
    intro indeg stack hlen _ _ _ _ hsnd hsinv hset
    exact ⟨hlen, hsnd, hsinv, fun w h1 h2 h3 => hset w h1 h2 h3 (by simp)⟩
  | cons c cs ih =>
    intro indeg stack hlen hcnd hcedge hcstack hcind hsnd hsinv hset
    have hedge : (v, c) ∈ g.edges := hcedge c (List.mem_cons_self c cs)
    have hcn : c < g.n := (hR _ hedge).2
    have hcv : c ≠ v := (hself _ hedge).symm
    have hcD : c ∉ D := by
      intro hc
      exact hvD (hDcl _ hedge hc)
    have hcD' : c ∉ D ++ [v] := by
      simp [hcD, hcv]
    have hdec : remIn g (D ++ [v]) c + 1 = remIn g D c :=
      remIn_append_child hE hvD hedge
    have hindc : indeg.getD c 0 = remIn g D c :=
      hcind c (List.mem_cons_self c cs)
    have hlen' : (indeg.set c (indeg.getD c 0 - 1)).length = g.n := by
      rw [List.length_set]
      exact hlen
    have hsetc : (indeg.set c (indeg.getD c 0 - 1)).getD c 0
        = remIn g (D ++ [v]) c := by
      rw [getD_set_self indeg c _ (by omega)]
      omega
    have heq0 : decChildren indeg stack (c :: cs)
        = decChildren (indeg.set c (indeg.getD c 0 - 1))
            (if ((indeg.set c (indeg.getD c 0 - 1)).getD c 0 == 0) = true
              then stack ++ [c] else stack) cs := rfl
    by_cases hzero :
        ((indeg.set c (indeg.getD c 0 - 1)).getD c 0 == 0) = true
    · -- child reaches zero in-degree: pushed onto the pending list
      have hz : (indeg.set c (indeg.getD c 0 - 1)).getD c 0 = 0 := by
        simpa using hzero
      have hrz : remIn g (D ++ [v]) c = 0 := by
        rw [← hsetc]
        exact hz
      rw [heq0, if_pos hzero]
      apply ih (indeg.set c (indeg.getD c 0 - 1)) (stack ++ [c]) hlen'
        (List.nodup_cons.mp hcnd).2
        (fun x hx => hcedge x (List.mem_cons_of_mem c hx))
      · intro x hx
        have hxs : x ∉ stack :=
          hcstack x (List.mem_cons_of_mem c hx)
        have hxc : x ≠ c := by
          intro hxc
          rw [hxc] at hx
          exact (List.nodup_cons.mp hcnd).1 hx
        simp [hxs, hxc]
      · intro x hx
        rw [getD_set_ne indeg c x _ (by
          intro hxc
          rw [← hxc] at hx
          exact (List.nodup_cons.mp hcnd).1 hx)]
        exact hcind x (List.mem_cons_of_mem c hx)
      · rw [List.nodup_append]
        refine ⟨hsnd, List.nodup_singleton c, ?_⟩
        intro x hx hxc
        rw [List.mem_singleton] at hxc
        rw [hxc] at hx
        exact hcstack c (List.mem_cons_self c cs) hx
      · intro w hw
        rcases List.mem_append.mp hw with hws | hwc
        · exact hsinv w hws
        · rw [List.mem_singleton] at hwc
          rw [hwc]
          exact ⟨hcn, hcD', hrz⟩
      · intro w hw1 hw2 hw3 hw4
        have hwc : w ≠ c := by
          intro hwc
          apply hw3
          rw [hwc]
          exact List.mem_append.mpr (Or.inr (List.mem_singleton.mpr rfl))
        rw [getD_set_ne indeg c w _ (fun h => hwc h.symm)]
        apply hset w hw1 hw2
        · intro hws
          exact hw3 (List.mem_append.mpr (Or.inl hws))
        · intro hwcs
          rcases List.mem_cons.mp hwcs with h | h
          · exact hwc h
          · exact hw4 h
    · -- child still has unmet predecessors: only the count is decremented
      rw [heq0, if_neg hzero]
      apply ih (indeg.set c (indeg.getD c 0 - 1)) stack hlen'
        (List.nodup_cons.mp hcnd).2
        (fun x hx => hcedge x (List.mem_cons_of_mem c hx))
        (fun x hx => hcstack x (List.mem_cons_of_mem c hx))
      · intro x hx
        rw [getD_set_ne indeg c x _ (by
          intro hxc
          rw [← hxc] at hx
          exact (List.nodup_cons.mp hcnd).1 hx)]
        exact hcind x (List.mem_cons_of_mem c hx)
      · exact hsnd
      · exact hsinv
      · intro w hw1 hw2 hw3 hw4
        by_cases hwc : w = c
        · rw [hwc, hsetc]
        · rw [getD_set_ne indeg c w _ (fun h => hwc h.symm)]
          apply hset w hw1 hw2 hw3
          intro hwcs
          rcases List.mem_cons.mp hwcs with h | h
          · exact hwc h
          · exact hw4 h

lemma kahnStackLoop_spec {g : Digraph} (hE : g.edges.Nodup)
    (hR : ∀ e ∈ g.edges, e.1 < g.n ∧ e.2 < g.n)
    (hself : ∀ e ∈ g.edges, e.1 ≠ e.2) :
    ∀ (fuel : Nat) (indeg stack D : List Nat),
      indeg.length = g.n →
      stack.Nodup →
      (∀ w ∈ stack, w < g.n ∧ w ∉ D ∧ remIn g D w = 0) →
      (∀ e ∈ g.edges, e.2 ∈ D → e.1 ∈ D) →
      (∀ w, w < g.n → w ∉ D → w ∉ stack → indeg.getD w 0 = remIn g D w) →
      ((kahnStackLoop g indeg stack fuel).Nodup
        ∧ (∀ w ∈ kahnStackLoop g indeg stack fuel, w < g.n ∧ w ∉ D)
        ∧ (∀ e ∈ g.edges, e.2 ∈ kahnStackLoop g indeg stack fuel →
            e.1 ∈ D ∨ (e.1 ∈ kahnStackLoop g indeg stack fuel ∧
              (kahnStackLoop g indeg stack fuel).indexOf e.1
                < (kahnStackLoop g indeg stack fuel).indexOf e.2))) := by
  intro fuel
  induction fuel with
  | zero =>
    intro indeg stack D _ _ _ _ _
    refine ⟨List.nodup_nil, ?_, ?_⟩
    · intro w hw
      cases hw
    · intro e _ he2
      cases he2
  | succ m ih =>
    intro indeg stack D hlen hsnd hsinv hDcl hset
    cases hlast : stack.getLast? with
    | none =>
      have : kahnStackLoop g indeg stack (m + 1) = [] := by
        unfold kahnStackLoop
        rw [hlast]
      rw [this]
      refine ⟨List.nodup_nil, ?_, ?_⟩
      · intro w hw
        cases hw
      · intro e _ he2
        cases he2
    | some v =>
      have hne : stack ≠ [] := by
        intro hnil
        rw [hnil] at hlast
        cases hlast
      have hvlast : stack.getLast hne = v := by
        have := List.getLast?_eq_getLast stack hne
        rw [hlast] at this
        exact (Option.some_inj.mp this).symm
      have hvstack : v ∈ stack := by
        rw [← hvlast]
        exact List.getLast_mem hne
      obtain ⟨hvn, hvD, hvrem⟩ := hsinv v hvstack
      have hsplit : stack.dropLast ++ [v] = stack := by
        rw [← hvlast]
        exact List.dropLast_append_getLast hne
      have hdropnd : stack.dropLast.Nodup :=
        hsnd.sublist (List.dropLast_sublist stack)
      have hvnotdrop : v ∉ stack.dropLast := by
        intro hv
        have := hsnd
        rw [← hsplit] at this
        rcases List.nodup_append.mp this with ⟨_, _, hdisj⟩
        exact hdisj hv (List.mem_singleton.mpr rfl)
      have hdropsub : ∀ w ∈ stack.dropLast, w ∈ stack := fun w hw =>
        (List.dropLast_sublist stack).subset hw
      -- children of v
      have hcs_nd : (succsOf g v).Nodup := succsOf_nodup hE v
      have hcs_edge : ∀ c ∈ succsOf g v, (v, c) ∈ g.edges := fun c hc =>
        mem_succsOf.mp hc
      have hcs_stack : ∀ c ∈ succsOf g v, c ∉ stack.dropLast := by
        intro c hc hcd
        obtain ⟨_, _, hcrem⟩ := hsinv c (hdropsub c hcd)
        have := remIn_eq_zero_iff.mp hcrem (v, c) (hcs_edge c hc) rfl
        exact hvD this
      have hcs_notstack : ∀ c ∈ succsOf g v, c ∉ stack := by
        intro c hc hcs
        obtain ⟨_, _, hcrem⟩ := hsinv c hcs
        have := remIn_eq_zero_iff.mp hcrem (v, c) (hcs_edge c hc) rfl
        exact hvD this
      have hcs_D : ∀ c ∈ succsOf g v, c ∉ D := by
        intro c hc hcD
        exact hvD (hDcl _ (hcs_edge c hc) hcD)
      have hcs_ind : ∀ c ∈ succsOf g v, indeg.getD c 0 = remIn g D c := by
        intro c hc
        exact hset c (hR _ (hcs_edge c hc)).2 (hcs_D c hc) (hcs_notstack c hc)
      -- drop-last stack invariants w.r.t. D ++ [v]
      have hdropinv : ∀ w ∈ stack.dropLast,
          w < g.n ∧ w ∉ D ++ [v] ∧ remIn g (D ++ [v]) w = 0 := by
        intro w hw
        obtain ⟨hw1, hw2, hw3⟩ := hsinv w (hdropsub w hw)
        refine ⟨hw1, ?_, remIn_subset_zero
          (fun x hx => List.mem_append.mpr (Or.inl hx)) hw3⟩
        intro hwa
        rcases List.mem_append.mp hwa with h | h
        · exact hw2 h
        · rw [List.mem_singleton] at h
          rw [h] at hw
          exact hvnotdrop hw
      -- settled hypothesis for decChildren, w.r.t. D ++ [v]
      have hsett : ∀ w, w < g.n → w ∉ D ++ [v] → w ∉ stack.dropLast →
          w ∉ succsOf g v → indeg.getD w 0 = remIn g (D ++ [v]) w := by
        intro w hw1 hw2 hw3 hw4
        have hwD : w ∉ D := by
          intro h
          exact hw2 (List.mem_append.mpr (Or.inl h))
        have hwv : w ≠ v := by
          intro h
          exact hw2 (List.mem_append.mpr (Or.inr (List.mem_singleton.mpr h)))
        have hwstack : w ∉ stack := by
          intro h
          rw [← hsplit] at h
          rcases List.mem_append.mp h with h' | h'
          · exact hw3 h'
          · rw [List.mem_singleton] at h'
            exact hwv h'
        have hnonchild : (v, w) ∉ g.edges := by
          intro h
          exact hw4 (mem_succsOf.mpr h)
        rw [hset w hw1 hwD hwstack, remIn_append_nonchild hnonchild]
      have hspec := decChildren_spec hE hvD hDcl hR hself (succsOf g v) indeg
        stack.dropLast hlen hcs_nd hcs_edge hcs_stack hcs_ind hdropnd
        hdropinv hsett
      obtain ⟨hlen', hnd', hinv', hset'⟩ := hspec
      -- closure of D ++ [v]
      have hDcl' : ∀ e ∈ g.edges, e.2 ∈ D ++ [v] → e.1 ∈ D ++ [v] := by
        intro e he h2
        rcases List.mem_append.mp h2 with h | h
        · exact List.mem_append.mpr (Or.inl (hDcl e he h))
        · rw [List.mem_singleton] at h
          have := remIn_eq_zero_iff.mp hvrem e he h
          exact List.mem_append.mpr (Or.inl this)
      have hloop : kahnStackLoop g indeg stack (m + 1)
          = v :: kahnStackLoop g
              (decChildren indeg stack.dropLast (succsOf g v)).1
              (decChildren indeg stack.dropLast (succsOf g v)).2 m := by
        conv_lhs => rw [kahnStackLoop]
        rw [hlast]
      obtain ⟨ihnd, ihmem, ihprec⟩ := ih
        (decChildren indeg stack.dropLast (succsOf g v)).1
        (decChildren indeg stack.dropLast (succsOf g v)).2 (D ++ [v])
        hlen' hnd' hinv' hDcl' hset'
      rw [hloop]
      have hvout : v ∉ kahnStackLoop g
          (decChildren indeg stack.dropLast (succsOf g v)).1
          (decChildren indeg stack.dropLast (succsOf g v)).2 m := by
        intro hv
        exact (ihmem v hv).2 (List.mem_append.mpr
          (Or.inr (List.mem_singleton.mpr rfl)))
      refine ⟨List.nodup_cons.mpr ⟨hvout, ihnd⟩, ?_, ?_⟩
      · intro w hw
        rcases List.mem_cons.mp hw with rfl | hw'
        · exact ⟨hvn, hvD⟩
        · obtain ⟨h1, h2⟩ := ihmem w hw'
          refine ⟨h1, ?_⟩
          intro hD
          exact h2 (List.mem_append.mpr (Or.inl hD))
      · intro e he he2
        rcases List.mem_cons.mp he2 with h2v | h2out
        · left
          exact remIn_eq_zero_iff.mp hvrem e he h2v
        · have h2nv : e.2 ≠ v := by
            intro h
            rw [h] at h2out
            exact hvout h2out
          rcases ihprec e he h2out with h1D | ⟨h1out, h1lt⟩
          · rcases List.mem_append.mp h1D with h | h
            · exact Or.inl h
            · rw [List.mem_singleton] at h
              right
              refine ⟨by rw [h]; exact List.mem_cons_self v _, ?_⟩
              rw [h, List.indexOf_cons_self, List.indexOf_cons_ne _ h2nv.symm]
              omega
          · have h1nv : e.1 ≠ v := by
              intro h
              rw [h] at h1out
              exact hvout h1out
            right
            refine ⟨List.mem_cons_of_mem v h1out, ?_⟩
            rw [List.indexOf_cons_ne _ h1nv.symm,
              List.indexOf_cons_ne _ h2nv.symm]
            omega

lemma nxTopologicalSort_valid {g : Digraph} (hE : g.edges.Nodup)
    (hR : ∀ e ∈ g.edges, e.1 < g.n ∧ e.2 < g.n)
    (hself : ∀ e ∈ g.edges, e.1 ≠ e.2) :
    (nxTopologicalSort g).Nodup
    ∧ (∀ w ∈ nxTopologicalSort g, w < g.n)
    ∧ (∀ e ∈ g.edges, e.2 ∈ nxTopologicalSort g →
        e.1 ∈ nxTopologicalSort g
        ∧ (nxTopologicalSort g).indexOf e.1
            < (nxTopologicalSort g).indexOf e.2) := by
  have hstackinv : ∀ w ∈ (List.range g.n).filter (fun v => inDeg g v == 0),
      w < g.n ∧ w ∉ ([] : List Nat) ∧ remIn g [] w = 0 := by
    intro w hw
    rcases List.mem_filter.mp hw with ⟨hwr, hwz⟩
    refine ⟨List.mem_range.mp hwr, by simp, ?_⟩
    rw [remIn_nil]
    simpa using hwz
  have hsettinit : ∀ w, w < g.n → w ∉ ([] : List Nat) →
      w ∉ (List.range g.n).filter (fun v => inDeg g v == 0) →
      ((List.range g.n).map (inDeg g)).getD w 0 = remIn g [] w := by
    intro w hw _ _
    rw [remIn_nil]
    have hwlen : w < ((List.range g.n).map (inDeg g)).length := by
      rw [List.length_map, List.length_range]
      exact hw
    rw [List.getD_eq_getElem _ 0 hwlen, List.getElem_map]
    congr 1
    exact List.getElem_range _ _
  have hspec := kahnStackLoop_spec hE hR hself g.n
    ((List.range g.n).map (inDeg g))
    ((List.range g.n).filter (fun v => inDeg g v == 0)) []
    (by rw [List.length_map, List.length_range])
    ((List.nodup_range g.n).filter _) hstackinv
    (fun e _ h => absurd h (List.not_mem_nil _)) hsettinit
  obtain ⟨hnd, hmem, hprec⟩ := hspec
  refine ⟨hnd, fun w hw => (hmem w hw).1, ?_⟩
  intro e he h2
  rcases hprec e he h2 with h1D | h
  · exact absurd h1D (List.not_mem_nil _)
  · exact h

/-- C4 amended: the order used by the executor is networkx
`topological_sort`, a stack-based Kahn traversal that is deterministic for
identical graphs and, whenever it completes (emits all `n` nodes), yields a
valid topological order — but it is not in general the lexicographically
smallest one; only the `test` scheduler in graph.py uses the
lexicographically smallest order. -/
theorem C4_amended (g : Digraph) (hE : g.edges.Nodup)
    (hRS : ∀ e ∈ g.edges, e.1 < g.n ∧ e.2 < g.n ∧ e.1 ≠ e.2)
    (hcomplete : (nxTopologicalSort g).length = g.n) :
    isTopoOrder g (nxTopologicalSort g) = true := by
  have hR : ∀ e ∈ g.edges, e.1 < g.n ∧ e.2 < g.n := fun e he =>
    ⟨(hRS e he).1, (hRS e he).2.1⟩
  have hself : ∀ e ∈ g.edges, e.1 ≠ e.2 := fun e he => (hRS e he).2.2
  obtain ⟨hnd, hmem, hprec⟩ := nxTopologicalSort_valid hE hR hself
  have hsub : nxTopologicalSort g ⊆ List.range g.n := by
    intro w hw
    exact List.mem_range.mpr (hmem w hw)
  have hperm : (nxTopologicalSort g).Perm (List.range g.n) :=
    (hnd.subperm hsub).perm_of_length_le
      (by rw [hcomplete, List.length_range])
  have hcov : ∀ v, v < g.n → v ∈ nxTopologicalSort g := by
    intro v hv
    exact hperm.symm.subset (List.mem_range.mpr hv)
  unfold isTopoOrder
  rw [Bool.and_eq_true, Bool.and_eq_true, Bool.and_eq_true]
  refine ⟨⟨⟨?_, ?_⟩, ?_⟩, ?_⟩
  · exact decide_eq_true hcomplete
  · exact decide_eq_true hnd
  · apply List.all_eq_true.mpr
    intro v hv
    exact contains_iff_mem_nat.mpr (hcov v (List.mem_range.mp hv))
  · apply List.all_eq_true.mpr
    intro e he
    have h2 : e.2 ∈ nxTopologicalSort g := hcov e.2 (hR e he).2
    exact decide_eq_true (hprec e he h2).2

/-- Witness for C4 amended on the fork DAG `0→2, 1→2`. -/
theorem C4_witness :
    forkGraph.edges.Nodup
    ∧ (∀ e ∈ forkGraph.edges,
        e.1 < forkGraph.n ∧ e.2 < forkGraph.n ∧ e.1 ≠ e.2)
    ∧ (nxTopologicalSort forkGraph).length = forkGraph.n
    ∧ isTopoOrder forkGraph (nxTopologicalSort forkGraph) = true := by
  refine ⟨by decide, by decide, by decide, ?_⟩
  exact C4_amended forkGraph (by decide) (by decide) (by decide)

end Randwire
